import Mathlib

/-!
Verification of the dasite visual-regression tool's crawl and image-diff
engine, shallowly embedded from the JavaScript source.

Modelling conventions:
* A parsed absolute http(s) URL (the result of the platform `new URL`
  constructor) is a `Url` record of hostname, pathname and query string.
  Two well-formed absolute URLs are equal as strings exactly when these
  components coincide, so JS string equality on URLs is structural
  equality on `Url`.
* The browser page capability is a function `pages : Url → List Url`
  giving, for each page, the absolute same-document links collected by the
  in-browser half of `extractLinks` (the `page.evaluate` block, which
  already resolved relative hrefs and dropped `javascript:`/fragment
  hrefs); the Node-side filtering is embedded as `extractLinks` below.
* JS numbers that hold diff percentages and thresholds are rationals; the
  result of the division `diffPixels / totalPixels * 100` is `Option ℚ`,
  `none` standing for the non-finite value (NaN) produced when
  `totalPixels = 0`.
-/

/-- A parsed absolute URL: `hostname`, `pathname` and the query string
(`search`).  Models the platform `URL` object for the well-formed http(s)
URLs the crawler handles. -/
structure Url where
  hostname : String
  pathname : String
  search : String
deriving DecidableEq, Repr

/-- First-occurrence deduplication, the order-preserving semantics of
`[...new Set(list)]` in JS. -/
def dedupFirst {α : Type} [DecidableEq α] (l : List α) : List α :=
  l.foldl (fun acc x => if x ∈ acc then acc else acc ++ [x]) []

/-- Node-side half of `extractLinks` (src/unnamed/part_006 lines 10–41):
keep links whose hostname equals the base URL's hostname, deduplicate
(`new Set`), and drop the base URL itself. -/
def extractLinks (pageLinks : List Url) (baseUrl : Url) : List Url :=
  (dedupFirst (pageLinks.filter (fun l => l.hostname = baseUrl.hostname))).filter
    (fun l => l ≠ baseUrl)

/-- The crawl loop state of `crawlSite` (src/unnamed/part_006 lines 51–106):
`visited` is the JS `Set` of URL strings in insertion order (one screenshot
is captured per insertion), `queue` the FIFO work list. -/
structure CrawlState where
  visited : List Url
  queue : List Url
deriving DecidableEq, Repr

/-- One iteration of the `while (queue.length > 0)` loop of `crawlSite`:
pop the front URL; skip it when already visited; otherwise mark it
visited, capture it, and push every extracted link not in `visited`. -/
def crawlStep (pages : Url → List Url) (startUrl : Url) (s : CrawlState) : CrawlState :=
  match s.queue with
  | [] => s
  | u :: rest =>
    if u ∈ s.visited then { s with queue := rest }
    else
      let links := extractLinks (pages u) startUrl
      { visited := s.visited ++ [u]
        queue := rest ++ links.filter (fun l => ¬ l ∈ s.visited ++ [u]) }

/-- Fuelled iteration of `crawlStep`; the source loop runs until the queue
empties, which the termination theorem recovers by exhibiting sufficient
fuel. -/
def crawlLoop (pages : Url → List Url) (startUrl : Url) : Nat → CrawlState → CrawlState
  | 0, s => s
  | fuel + 1, s =>
    match s.queue with
    | [] => s
    | _ :: _ => crawlLoop pages startUrl fuel (crawlStep pages startUrl s)

/-- `crawlSite(startUrl, options)`: start from `visited = {}`,
`queue = [startUrl]` and run the loop. -/
def crawlSite (pages : Url → List Url) (startUrl : Url) (fuel : Nat) : CrawlState :=
  crawlLoop pages startUrl fuel { visited := [], queue := [startUrl] }

/-- Reachability along the crawler's own edge relation: the links that
`extractLinks` yields on each page of the crawl started at `start`. -/
inductive Reaches (pages : Url → List Url) (start : Url) : Url → Prop
  | refl : Reaches pages start start
  | step {u v : Url} : Reaches pages start u →
      v ∈ extractLinks (pages u) start → Reaches pages start v

/-! ## URL identity derivation (src/lib/screenshot.js) -/

/-- The regex `^https?:\/\/` applied by `getUrlDirectory`: drop a leading
`http://` or `https://` if present. -/
def stripScheme (s : List Char) : List Char :=
  match s with
  | 'h' :: 't' :: 't' :: 'p' :: 's' :: ':' :: '/' :: '/' :: rest => rest
  | 'h' :: 't' :: 't' :: 'p' :: ':' :: '/' :: '/' :: rest => rest
  | _ => s

/-- The regex `[^\w\d]` → `_`: any character outside ASCII
`[A-Za-z0-9_]` becomes an underscore. -/
def sanitizeChar (c : Char) : Char :=
  if c.isAlphanum ∨ c = '_' then c else '_'

/-- The regex `_+` → `_`: collapse each run of underscores to one. -/
def collapseUnderscores : List Char → List Char
  | [] => []
  | [c] => [c]
  | a :: b :: rest =>
    if a = '_' ∧ b = '_' then collapseUnderscores (b :: rest)
    else a :: collapseUnderscores (b :: rest)

/-- The directory-name derivation shared by `takeScreenshot` and
`getUrlDirectory`: take `hostname + pathname` (query dropped), strip a
scheme prefix, replace non-word characters with `_`, collapse runs of
`_`. -/
def urlDirName (url : Url) : String :=
  String.mk (collapseUnderscores
    ((stripScheme (url.hostname ++ url.pathname).data).map sanitizeChar))

/-- `getUrlDirectory(url, baseDir)` (src/lib/screenshot.js lines 52–63):
`path.join(baseDir, dirName)`. -/
def getUrlDirectory (url : Url) (baseDir : String) : String :=
  baseDir ++ "/" ++ urlDirName url

/-! ## Image comparator (src/compare-screenshots.js lines 412–548,
`compareImages`) -/

/-- A decoded raster image: dimensions plus the RGB value of each pixel
(alpha is read but never compared by the source loop). -/
structure Image where
  width : Nat
  height : Nat
  pix : Nat → Nat → Nat × Nat × Nat

/-- A changed region accumulator: `{x1, y1, x2, y2, pixels}` exactly as
built by `compareImages`. -/
structure Region where
  x1 : Nat
  y1 : Nat
  x2 : Nat
  y2 : Nat
  pixels : Nat
deriving DecidableEq, Repr

/-- Squared RGB distance between two pixels; the source computes
`Math.sqrt(Δr² + Δg² + Δb²)`. -/
def dist2 (p q : Nat × Nat × Nat) : Int :=
  ((p.1 : Int) - q.1) ^ 2 + ((p.2.1 : Int) - q.2.1) ^ 2 + ((p.2.2 : Int) - q.2.2) ^ 2

/-- The per-pixel test `Math.sqrt(Δr²+Δg²+Δb²) > threshold`.  The
sensitivity `threshold` option is documented as a 0–255 value (default
0) and is embedded as an integer; over the reals `√d > t` holds iff
`t < 0` or `d > t²`, which is the square-root-free decidable form used
here. -/
def pixelChanged (t : Int) (p q : Nat × Nat × Nat) : Bool :=
  decide (t < 0) || decide (dist2 p q > t * t)

/-- Mutable state of the comparison loop: the running changed-pixel count,
the open region accumulator, and the closed regions list. -/
structure DiffState where
  diffPixels : Nat
  currentRegion : Option Region
  changedRegions : List Region
deriving DecidableEq, Repr

/-- The body of the doubly nested pixel loop of `compareImages` at one
coordinate `(x, y)` (the diff-image pixel writes carry no information the
claims mention and are omitted). -/
def diffStep (t : Int) (orig cur : Image) (s : DiffState) (xy : Nat × Nat) : DiffState :=
  let x := xy.1
  let y := xy.2
  if pixelChanged t (orig.pix x y) (cur.pix x y) then
    match s.currentRegion with
    | none =>
      { diffPixels := s.diffPixels + 1
        currentRegion := some ⟨x, y, x, y, 1⟩
        changedRegions := s.changedRegions }
    | some cr =>
      if ((x : Int) - cr.x2).natAbs < 20 ∧ ((y : Int) - cr.y2).natAbs < 20 then
        { diffPixels := s.diffPixels + 1
          currentRegion := some ⟨cr.x1, cr.y1, max cr.x2 x, max cr.y2 y, cr.pixels + 1⟩
          changedRegions := s.changedRegions }
      else
        { diffPixels := s.diffPixels + 1
          currentRegion := some ⟨x, y, x, y, 1⟩
          changedRegions :=
            if cr.pixels > 10 then s.changedRegions ++ [cr] else s.changedRegions }
  else s

/-- The raster-order coordinate sequence of the overlap: `y` outer over
`[0, h)`, `x` inner over `[0, w)`. -/
def rasterCoords (w h : Nat) : List (Nat × Nat) :=
  (List.range h).bind (fun y => (List.range w).map (fun x => (x, y)))

/-- Result record of `compareImages`; `diffPercentage` is `none` when the
JS division `diffPixels / totalPixels * 100` is not finite (0/0 → NaN). -/
structure CompareResult where
  diffPixels : Nat
  totalPixels : Nat
  diffPercentage : Option ℚ
  changedRegions : List Region
  width : Nat
  height : Nat
deriving DecidableEq, Repr

/-- `compareImages(originalPath, currentPath, diffPath, options)`
(src/compare-screenshots.js lines 412–548): run the pixel loop over the
overlapping extent `min width × min height`, close the final open region
when it holds more than 10 pixels, and divide.  The JS expression
`diffPixels / totalPixels * 100` is the exact rational
`(diffPixels * 100) / totalPixels` when `totalPixels ≠ 0` and NaN
(`none`) when it is `0`. -/
def compareImages (orig cur : Image) (t : Int) : CompareResult :=
  let minW := min orig.width cur.width
  let minH := min orig.height cur.height
  let totalPixels := minW * minH
  let final := (rasterCoords minW minH).foldl (diffStep t orig cur) ⟨0, none, []⟩
  { diffPixels := final.diffPixels
    totalPixels := totalPixels
    diffPercentage :=
      if totalPixels = 0 then none
      else some (Rat.divInt ((final.diffPixels : Int) * 100) (totalPixels : Int))
    changedRegions :=
      final.changedRegions ++
        (match final.currentRegion with
          | some cr => if cr.pixels > 10 then [cr] else []
          | none => [])
    width := max orig.width cur.width
    height := max orig.height cur.height }

/-- The full `compareImages` call including the canvas error path that
precedes the pixel loop.  `originalCtx.getImageData(0, 0,
originalImage.width, originalImage.height)` (compare-screenshots.js line
434) raises `IndexSizeError` when the requested rectangle has a zero
dimension, i.e. when the original image does; `ctx.getImageData(0, 0,
width, height)` and `createImageData(width, height)` (lines 435 and 437)
request the max dimensions and so raise only when both images share a
zero axis.  Only after these calls succeed does the pixel loop of
`compareImages` run. -/
def compareImagesRun (orig cur : Image) (t : Int) : Except String CompareResult :=
  if orig.width = 0 ∨ orig.height = 0 then Except.error "IndexSizeError"
  else if max orig.width cur.width = 0 ∨ max orig.height cur.height = 0 then
    Except.error "IndexSizeError"
  else Except.ok (compareImages orig cur t)

/-! ## Threshold decision (src/unnamed/part_002 `processComparison`,
src/compare-screenshots.js lines 107–116 `compareScreenshots`) -/

/-- `Math.max(...list)` for a nonempty list (the source only evaluates it
on a nonempty `changedScreenshots`). -/
def maxOf : List ℚ → ℚ
  | [] => 0
  | p :: ps => ps.foldl max p

/-- The pass/fail decision of a comparison run with a configured
threshold: each pair is `changed` iff its `diffPercentage > threshold`
(src/compare-screenshots.js line 113); `processComparison` (part_002
lines 191–256) returns early when no pair is changed and otherwise exits
non-zero iff the maximum changed percentage exceeds the threshold.
`true` means the run fails (exit 1). -/
def processComparison (percentages : List ℚ) (threshold : ℚ) : Bool :=
  let changed := percentages.filter (fun p => p > threshold)
  match changed with
  | [] => false
  | _ :: _ => decide (maxOf changed > threshold)

/-! ## Accept operation (src/unnamed/part_007 `acceptSnapshots`) -/

/-- One per-URL subdirectory of the output directory: its name, its
`current.png` content and its `baseline.png` content (`none` = file
absent; contents are abstract ids, enough to observe overwriting). -/
structure Target where
  name : String
  current : Option Nat
  baseline : Option Nat
deriving DecidableEq, Repr

/-- The `for (const dir of directories)` loop of `acceptSnapshots` over
the subdirectories of the output directory (`directories` excludes the
entry named `snapshots`): `fs.access(current.png)` succeeds iff a current
image exists, in which case it is copied onto `baseline.png` and the
counter is incremented. -/
def acceptLoop : List Target → List Target × Nat
  | [] => ([], 0)
  | t :: ts =>
    let (ts', n) := acceptLoop ts
    if t.name = "snapshots" then (t :: ts', n)
    else
      match t.current with
      | some c => ({ t with baseline := some c } :: ts', n + 1)
      | none => (t :: ts', n)

/-- `acceptSnapshots(testType, baseDir)` (src/unnamed/part_007 lines
23–80): when the snapshots directory holds `.tmp.png` files they are
renamed in place and counted; otherwise every subdirectory of the output
directory other than `snapshots` with a `current.png` gets it copied to
`baseline.png`.  Returns the updated targets and the accepted count. -/
def acceptSnapshots (tmpFiles : List String) (targets : List Target) :
    List Target × Nat :=
  let tmpScreenshots := tmpFiles.filter (fun f => f.endsWith ".tmp.png")
  match tmpScreenshots with
  | _ :: _ => (targets, tmpScreenshots.length)
  | [] => acceptLoop targets

/-- Loop invariant of `crawlSite` over a finite closed universe of URLs:
the visited list is duplicate-free, visited and queued URLs lie in the
universe and are reachable, every link out of a visited page is visited
or pending, and the seed is visited or pending. -/
def CrawlInv (pages : Url → List Url) (start : Url) (univ : List Url)
    (s : CrawlState) : Prop :=
  s.visited.Nodup ∧
  (∀ u ∈ s.visited, u ∈ univ) ∧
  (∀ u ∈ s.queue, u ∈ univ) ∧
  (∀ u ∈ s.visited, ∀ v ∈ extractLinks (pages u) start, v ∈ s.visited ∨ v ∈ s.queue) ∧
  (∀ u ∈ s.visited, Reaches pages start u) ∧
  (∀ u ∈ s.queue, Reaches pages start u) ∧
  (start ∈ s.visited ∨ start ∈ s.queue)

/-- Termination measure: unvisited budget weighted against the queue. -/
def crawlMeasure (univ : List Url) (B : Nat) (s : CrawlState) : Nat :=
  (univ.toFinset.card - s.visited.length) * (B + 1) + s.queue.length

/-! ## Generic helper lemmas -/

theorem foldl_preserve {α β : Type _} (f : β → α → β) (P : β → Prop)
    (h : ∀ s a, P s → P (f s a)) (l : List α) (s : β) (hs : P s) :
    P (l.foldl f s) := by
  induction l generalizing s with
  | nil => exact hs
  | cons a l ih => exact ih (f s a) (h s a hs)

theorem foldl_fixed {α β : Type _} (f : β → α → β) (s : β) (l : List α)
    (h : ∀ a ∈ l, f s a = s) : l.foldl f s = s := by
  induction l with
  | nil => rfl
  | cons a l ih =>
    rw [List.foldl_cons, h a (List.mem_cons_self a l)]
    exact ih (fun b hb => h b (List.mem_cons_of_mem a hb))

theorem mem_dedupFirst {α : Type _} [DecidableEq α] {l : List α} {x : α} :
    x ∈ dedupFirst l ↔ x ∈ l := by
  have aux : ∀ (l acc : List α),
      (x ∈ l.foldl (fun acc y => if y ∈ acc then acc else acc ++ [y]) acc ↔
        x ∈ acc ∨ x ∈ l) := by
    intro l
    induction l with
    | nil => intro acc; simp
    | cons a l ih =>
      intro acc
      rw [List.foldl_cons, ih]
      by_cases ha : a ∈ acc
      · simp only [if_pos ha, List.mem_cons]
        constructor
        · rintro (h | h)
          · exact Or.inl h
          · exact Or.inr (Or.inr h)
        · rintro (h | h | h)
          · exact Or.inl h
          · exact Or.inl (h ▸ ha)
          · exact Or.inr h
      · simp only [if_neg ha, List.mem_append, List.mem_singleton, List.mem_cons]
        tauto
  simpa using aux l []

/-! ## C9 — URL identity ignores the query string -/

/-- Claim C9: the on-disk identity derived from a URL ignores the query
string: any two URLs with the same hostname and path derive the same
directory identity, whatever their query strings. -/
theorem getUrlDirectory_ignores_query (u1 u2 : Url) (baseDir : String)
    (hh : u1.hostname = u2.hostname) (hp : u1.pathname = u2.pathname) :
    getUrlDirectory u1 baseDir = getUrlDirectory u2 baseDir := by
  simp [getUrlDirectory, urlDirName, hh, hp]

/-- Witness for C9 at `http://host/path?query=1` vs `http://host/path?query=2`. -/
theorem getUrlDirectory_ignores_query_witness :
    getUrlDirectory ⟨"host", "/path", "query=1"⟩ "dasite" =
      getUrlDirectory ⟨"host", "/path", "query=2"⟩ "dasite" :=
  getUrlDirectory_ignores_query ⟨"host", "/path", "query=1"⟩
    ⟨"host", "/path", "query=2"⟩ "dasite" rfl rfl

/-! ## C3 — strictly-greater-than threshold semantics -/

/-- Claim C3: a comparison run fails exactly when there are changed
targets and the maximum `diffPercentage` over them strictly exceeds the
configured threshold; in particular a single pair with
`diffPercentage = T` does not fail at `threshold = T` and fails at any
threshold strictly below `T`. -/
theorem processComparison_strict_threshold
    (percentages : List ℚ) (t T : ℚ) (hlt : t < T) :
    (processComparison percentages t = true ↔
      percentages.filter (fun p => p > t) ≠ [] ∧
        maxOf (percentages.filter (fun p => p > t)) > t) ∧
    processComparison [T] T = false ∧
    processComparison [T] t = true := by
  refine ⟨?_, ?_, ?_⟩
  · unfold processComparison
    rcases h : percentages.filter (fun p => p > t) with _ | ⟨p, ps⟩
    · simp
    · simp
  · have : ¬ (T > T) := lt_irrefl T
    simp [processComparison, List.filter, this]
  · have hT : T > t := hlt
    simp [processComparison, List.filter, hT, maxOf]

/-- Witness for C3 with one pair at `diffPercentage = 3` and thresholds
`3` (no failure) and `2` (failure). -/
theorem processComparison_strict_threshold_witness :
    (processComparison [(3 : ℚ)] 2 = true ↔
      ([(3 : ℚ)].filter (fun p => p > 2) ≠ [] ∧
        maxOf ([(3 : ℚ)].filter (fun p => p > 2)) > 2)) ∧
    processComparison [(3 : ℚ)] 3 = false ∧
    processComparison [(3 : ℚ)] 2 = true :=
  processComparison_strict_threshold [(3 : ℚ)] 2 3 (by norm_num)

/-! ## C7 — accept promotes current images to baselines -/

/-- Counterexample to claim C7 as stated: a target that already has a
baseline *is* overwritten by accept, and is counted.  With one target
holding `current = 1` and `baseline = 2`, `acceptSnapshots` returns the
target with `baseline = 1` and count `1`, while the claim predicts an
untouched baseline and count `0` (no target lacks a baseline). -/
theorem acceptSnapshots_overwrites_baseline :
    acceptSnapshots [] [⟨"t", some 1, some 2⟩] = ([⟨"t", some 1, some 1⟩], 1) ∧
    ([(⟨"t", some 1, some 2⟩ : Target)].filter
      (fun t => t.current.isSome && t.baseline.isNone)).length = 0 := by
  constructor
  · rfl
  · rfl

/-- Claim C7 amended: when the snapshots directory holds no `.tmp.png`
file, accept copies `current` to `baseline` for *every* non-`snapshots`
target that has a current image — overwriting any existing baseline — and
returns the count of all such targets, not only of those lacking a
baseline. -/
theorem acceptSnapshots_promotes_all_current (targets : List Target) :
    (acceptSnapshots [] targets).1 =
      targets.map (fun t =>
        if t.name = "snapshots" then t
        else
          match t.current with
          | some c => { t with baseline := some c }
          | none => t) ∧
    (acceptSnapshots [] targets).2 =
      (targets.filter (fun t => !(t.name == "snapshots") && t.current.isSome)).length := by
  have loop : ∀ ts : List Target,
      acceptLoop ts =
        (ts.map (fun t =>
          if t.name = "snapshots" then t
          else
            match t.current with
            | some c => { t with baseline := some c }
            | none => t),
         (ts.filter (fun t => !(t.name == "snapshots") && t.current.isSome)).length) := by
    intro ts
    induction ts with
    | nil => rfl
    | cons t ts ih =>
      by_cases hn : t.name = "snapshots"
      · simp [acceptLoop, ih, hn, List.filter]
      · have hn' : (t.name == "snapshots") = false := by
          simpa using hn
        rcases hc : t.current with _ | c
        · simp [acceptLoop, ih, hn, hn', hc, List.filter]
        · simp [acceptLoop, ih, hn, hn', hc, List.filter]
  have : acceptSnapshots [] targets = acceptLoop targets := rfl
  rw [this, loop targets]
  exact ⟨rfl, rfl⟩

/-! ## Image comparator lemmas -/

theorem rasterCoords_length (w h : Nat) : (rasterCoords w h).length = w * h := by
  simp only [rasterCoords, List.length_bind]
  have hmap : (List.map (List.length ∘ fun y => List.map (fun x => (x, y)) (List.range w))
      (List.range h)) = List.map (fun _ => w) (List.range h) := by
    apply List.map_congr_left
    intro y _
    simp
  rw [hmap, List.map_const', List.sum_replicate, List.length_range, smul_eq_mul, mul_comm]

theorem dist2_self (p : Nat × Nat × Nat) : dist2 p p = 0 := by
  simp [dist2]

theorem pixelChanged_self (t : Int) (ht : 0 ≤ t) (p : Nat × Nat × Nat) :
    pixelChanged t p p = false := by
  have h1 : ¬ t < 0 := not_lt.mpr ht
  have h2 : ¬ dist2 p p > t * t := by
    rw [dist2_self]
    exact not_lt.mpr (mul_self_nonneg t)
  simp [pixelChanged, h1, h2]

theorem diffStep_unchanged (t : Int) (o c : Image) (s : DiffState) (xy : Nat × Nat)
    (h : pixelChanged t (o.pix xy.1 xy.2) (c.pix xy.1 xy.2) = false) :
    diffStep t o c s xy = s := by
  simp [diffStep, h]

theorem diffStep_diffPixels_le (t : Int) (o c : Image) (s : DiffState) (xy : Nat × Nat) :
    (diffStep t o c s xy).diffPixels ≤ s.diffPixels + 1 := by
  by_cases hpc : pixelChanged t (o.pix xy.1 xy.2) (c.pix xy.1 xy.2) = true
  · rcases hcr : s.currentRegion with _ | cr
    · simp [diffStep, hpc, hcr]
    · by_cases hin : ((xy.1 : Int) - cr.x2).natAbs < 20 ∧ ((xy.2 : Int) - cr.y2).natAbs < 20
      · simp [diffStep, hpc, hcr, hin]
      · simp [diffStep, hpc, hcr, hin]
  · simp [diffStep, hpc]

theorem foldl_diffStep_diffPixels_le (t : Int) (o c : Image) (l : List (Nat × Nat)) :
    ∀ s : DiffState, (l.foldl (diffStep t o c) s).diffPixels ≤ s.diffPixels + l.length := by
  induction l with
  | nil => intro s; simp
  | cons xy l ih =>
    intro s
    calc (List.foldl (diffStep t o c) (diffStep t o c s xy) l).diffPixels
        ≤ (diffStep t o c s xy).diffPixels + l.length := ih _
      _ ≤ s.diffPixels + 1 + l.length := by
          exact Nat.add_le_add_right (diffStep_diffPixels_le t o c s xy) _
      _ = s.diffPixels + (xy :: l).length := by simp [List.length_cons]; ring

theorem diffStep_regions_big (t : Int) (o c : Image) (s : DiffState) (xy : Nat × Nat)
    (h : ∀ r ∈ s.changedRegions, r.pixels > 10) :
    ∀ r ∈ (diffStep t o c s xy).changedRegions, r.pixels > 10 := by
  by_cases hpc : pixelChanged t (o.pix xy.1 xy.2) (c.pix xy.1 xy.2) = true
  · rcases hcr : s.currentRegion with _ | cr
    · simpa [diffStep, hpc, hcr] using h
    · by_cases hin : ((xy.1 : Int) - cr.x2).natAbs < 20 ∧ ((xy.2 : Int) - cr.y2).natAbs < 20
      · simpa [diffStep, hpc, hcr, hin] using h
      · by_cases hbig : cr.pixels > 10
        · intro r hr
          simp [diffStep, hpc, hcr, hin, hbig] at hr
          rcases hr with hl | rfl
          · exact h r hl
          · exact hbig
        · simpa [diffStep, hpc, hcr, hin, hbig] using h
  · simpa [diffStep, hpc] using h

/-! ## C2 — comparing an image with itself -/

/-- Claim C2: for every image (with the positive dimensions every decoded
raster has) and every non-negative per-pixel sensitivity, comparing the
image against an identical copy of itself yields `diffPercentage = 0`, an
empty `changedRegions` list, and zero differing pixels. -/
theorem compareImages_self_identity (img : Image) (t : Int)
    (ht : 0 ≤ t) (hw : 0 < img.width) (hh : 0 < img.height) :
    (compareImages img img t).diffPercentage = some 0 ∧
    (compareImages img img t).changedRegions = [] ∧
    (compareImages img img t).diffPixels = 0 := by
  have hfold :
      (rasterCoords (min img.width img.width) (min img.height img.height)).foldl
        (diffStep t img img) ⟨0, none, []⟩ = ⟨0, none, []⟩ :=
    foldl_fixed _ _ _ (fun xy _ =>
      diffStep_unchanged t img img _ xy (pixelChanged_self t ht _))
  have htp : ¬ (min img.width img.width * min img.height img.height = 0) := by
    simp only [min_self]
    have := Nat.mul_pos hw hh
    omega
  constructor
  · show (if min img.width img.width * min img.height img.height = 0 then none
      else some (Rat.divInt _ _)) = some 0
    rw [if_neg htp, hfold]
    norm_num
  constructor
  · show _ ++ _ = []
    rw [hfold]
    rfl
  · show ((rasterCoords _ _).foldl (diffStep t img img) ⟨0, none, []⟩).diffPixels = 0
    rw [hfold]

/-- Witness for C2: a concrete 3×2 image compared against itself at the
default sensitivity 0. -/
theorem compareImages_self_identity_witness :
    (compareImages ⟨3, 2, fun x y => (x, y, 7)⟩ ⟨3, 2, fun x y => (x, y, 7)⟩ 0).diffPercentage
        = some 0 ∧
    (compareImages ⟨3, 2, fun x y => (x, y, 7)⟩ ⟨3, 2, fun x y => (x, y, 7)⟩ 0).changedRegions
        = [] ∧
    (compareImages ⟨3, 2, fun x y => (x, y, 7)⟩ ⟨3, 2, fun x y => (x, y, 7)⟩ 0).diffPixels
        = 0 :=
  compareImages_self_identity ⟨3, 2, fun x y => (x, y, 7)⟩ 0
    (by decide) (by decide) (by decide)

/-! ## C4 — overlap-based percentage, no size-mismatch error -/

/-- Claim C4: `compareImages` compares only the overlapping extent of the
two images — `totalPixels` is `min width × min height`, `diffPixels`
never exceeds it — and `diffPercentage` equals
`diffPixels / totalPixels * 100`; images of different dimensions are
handled by the same total function, with no error path for the size
mismatch. -/
theorem compareImages_overlap_percentage (o c : Image) (t : Int)
    (h : 0 < min o.width c.width * min o.height c.height) :
    (compareImages o c t).totalPixels = min o.width c.width * min o.height c.height ∧
    (compareImages o c t).diffPixels ≤ (compareImages o c t).totalPixels ∧
    (compareImages o c t).diffPercentage =
      some (((compareImages o c t).diffPixels : ℚ) /
        ((compareImages o c t).totalPixels : ℚ) * 100) := by
  have htot : (compareImages o c t).totalPixels =
      min o.width c.width * min o.height c.height := rfl
  have hle : (compareImages o c t).diffPixels ≤ (compareImages o c t).totalPixels := by
    show ((rasterCoords _ _).foldl (diffStep t o c) ⟨0, none, []⟩).diffPixels ≤ _
    calc ((rasterCoords (min o.width c.width) (min o.height c.height)).foldl
          (diffStep t o c) ⟨0, none, []⟩).diffPixels
        ≤ (⟨0, none, []⟩ : DiffState).diffPixels +
            (rasterCoords (min o.width c.width) (min o.height c.height)).length :=
          foldl_diffStep_diffPixels_le t o c _ _
      _ = min o.width c.width * min o.height c.height := by
          rw [rasterCoords_length]
          simp
  refine ⟨htot, hle, ?_⟩
  have hne : ¬ (min o.width c.width * min o.height c.height = 0) := by omega
  have hdp : (compareImages o c t).diffPercentage =
      if min o.width c.width * min o.height c.height = 0 then none
      else some (Rat.divInt (((compareImages o c t).diffPixels : Int) * 100)
        ((compareImages o c t).totalPixels : Int)) := rfl
  rw [hdp, if_neg hne, Rat.divInt_eq_div]
  push_cast
  rw [div_mul_eq_mul_div]

/-- Witness for C4 on images of different dimensions (3×2 vs 2×3,
overlapping extent 2×2). -/
theorem compareImages_overlap_percentage_witness :
    (compareImages ⟨3, 2, fun _ _ => (0, 0, 0)⟩ ⟨2, 3, fun _ _ => (9, 0, 0)⟩ 0).totalPixels =
      min 3 2 * min 2 3 ∧
    (compareImages ⟨3, 2, fun _ _ => (0, 0, 0)⟩ ⟨2, 3, fun _ _ => (9, 0, 0)⟩ 0).diffPixels ≤
      (compareImages ⟨3, 2, fun _ _ => (0, 0, 0)⟩ ⟨2, 3, fun _ _ => (9, 0, 0)⟩ 0).totalPixels ∧
    (compareImages ⟨3, 2, fun _ _ => (0, 0, 0)⟩ ⟨2, 3, fun _ _ => (9, 0, 0)⟩ 0).diffPercentage =
      some (((compareImages ⟨3, 2, fun _ _ => (0, 0, 0)⟩
          ⟨2, 3, fun _ _ => (9, 0, 0)⟩ 0).diffPixels : ℚ) /
        ((compareImages ⟨3, 2, fun _ _ => (0, 0, 0)⟩
          ⟨2, 3, fun _ _ => (9, 0, 0)⟩ 0).totalPixels : ℚ) * 100) :=
  compareImages_overlap_percentage ⟨3, 2, fun _ _ => (0, 0, 0)⟩
    ⟨2, 3, fun _ _ => (9, 0, 0)⟩ 0 (by decide)

/-! ## C6 — regions carry more than the minimum pixel count -/

/-- Claim C6: a region reaches `changedRegions` only if it accumulated
more than 10 pixels, so in particular an isolated changed pixel (a
1-pixel region never extended within the 20px proximity window) never
appears there. -/
theorem compareImages_region_min_pixels (o c : Image) (t : Int) (r : Region)
    (hr : r ∈ (compareImages o c t).changedRegions) : r.pixels > 10 := by
  have hfold : ∀ x ∈ ((rasterCoords (min o.width c.width) (min o.height c.height)).foldl
      (diffStep t o c) ⟨0, none, []⟩).changedRegions, x.pixels > 10 :=
    foldl_preserve (diffStep t o c) (fun s => ∀ x ∈ s.changedRegions, x.pixels > 10)
      (fun s a hs => diffStep_regions_big t o c s a hs) _ _ (by simp)
  have hr' : r ∈ ((rasterCoords (min o.width c.width) (min o.height c.height)).foldl
      (diffStep t o c) ⟨0, none, []⟩).changedRegions ++
      (match ((rasterCoords (min o.width c.width) (min o.height c.height)).foldl
        (diffStep t o c) ⟨0, none, []⟩).currentRegion with
        | some cr => if cr.pixels > 10 then [cr] else []
        | none => []) := hr
  rcases List.mem_append.mp hr' with hl | hl
  · exact hfold r hl
  · rcases hcr : ((rasterCoords (min o.width c.width) (min o.height c.height)).foldl
        (diffStep t o c) ⟨0, none, []⟩).currentRegion with _ | cr
    · rw [hcr] at hl
      have hl' : r ∈ ([] : List Region) := hl
      simp at hl'
    · rw [hcr] at hl
      have hl' : r ∈ (if cr.pixels > 10 then [cr] else []) := hl
      by_cases hbig : cr.pixels > 10
      · rw [if_pos hbig] at hl'
        rcases List.mem_singleton.mp hl' with rfl
        exact hbig
      · rw [if_neg hbig] at hl'
        simp at hl'

/-- Witness for C6: a 12×1 strip whose every pixel changed produces one
region of 12 pixels, and the theorem instantiates on it. -/
theorem compareImages_region_min_pixels_witness :
    (⟨0, 0, 11, 0, 12⟩ : Region) ∈
      (compareImages ⟨12, 1, fun _ _ => (0, 0, 0)⟩
        ⟨12, 1, fun _ _ => (255, 255, 255)⟩ 0).changedRegions ∧
    (⟨0, 0, 11, 0, 12⟩ : Region).pixels > 10 :=
  ⟨by decide,
   compareImages_region_min_pixels ⟨12, 1, fun _ _ => (0, 0, 0)⟩
     ⟨12, 1, fun _ _ => (255, 255, 255)⟩ 0 ⟨0, 0, 11, 0, 12⟩ (by decide)⟩

/-! ## C10 — empty overlap raises before the division -/

/-- Counterexample to claim C10 as stated: at an input with an empty
overlapping extent — a 0×5 original against a 4×5 current — the
comparison does not return with a NaN percentage; `getImageData` on the
zero-width original raises `IndexSizeError` before the pixel loop or the
division is reached. -/
theorem compareImages_empty_overlap_raises :
    compareImagesRun ⟨0, 5, fun _ _ => (0, 0, 0)⟩ ⟨4, 5, fun _ _ => (0, 0, 0)⟩ 0 =
      Except.error "IndexSizeError" ∧
    min (⟨0, 5, fun _ _ => (0, 0, 0)⟩ : Image).width
      (⟨4, 5, fun _ _ => (0, 0, 0)⟩ : Image).width = 0 := by
  constructor
  · rfl
  · rfl

/-- Claim C10 amended: a zero-dimension original image makes
`compareImages` raise `IndexSizeError` at `getImageData` before the
unguarded division is ever reached, so no non-finite `diffPercentage` is
returned there; and for images with positive dimensions on both sides —
the only rasters `loadImage` can decode — the call returns normally with
a positive `totalPixels`, so the division is never `0 / 0`. -/
theorem compareImagesRun_zero_dim (o c : Image) (t : Int) :
    ((o.width = 0 ∨ o.height = 0) →
      compareImagesRun o c t = Except.error "IndexSizeError") ∧
    (0 < o.width → 0 < o.height → 0 < c.width → 0 < c.height →
      compareImagesRun o c t = Except.ok (compareImages o c t) ∧
      0 < (compareImages o c t).totalPixels) := by
  constructor
  · intro h
    simp [compareImagesRun, h]
  · intro how hoh hcw hch
    have hno : ¬ (o.width = 0 ∨ o.height = 0) := by omega
    have hnm : ¬ (max o.width c.width = 0 ∨ max o.height c.height = 0) := by
      omega
    constructor
    · simp only [compareImagesRun, if_neg hno, if_neg hnm]
    · show 0 < min o.width c.width * min o.height c.height
      exact Nat.mul_pos (lt_min how hcw) (lt_min hoh hch)

/-- Witness for C10 (amended): the raising branch at a 0×5 original
against a 4×5 current, and the normal branch at 3×2 against 2×3. -/
theorem compareImagesRun_zero_dim_witness :
    compareImagesRun ⟨0, 5, fun _ _ => (0, 0, 0)⟩ ⟨4, 5, fun _ _ => (0, 0, 0)⟩ 0 =
      Except.error "IndexSizeError" ∧
    (compareImagesRun ⟨3, 2, fun _ _ => (0, 0, 0)⟩ ⟨2, 3, fun _ _ => (9, 0, 0)⟩ 0 =
      Except.ok (compareImages ⟨3, 2, fun _ _ => (0, 0, 0)⟩ ⟨2, 3, fun _ _ => (9, 0, 0)⟩ 0) ∧
      0 < (compareImages ⟨3, 2, fun _ _ => (0, 0, 0)⟩
        ⟨2, 3, fun _ _ => (9, 0, 0)⟩ 0).totalPixels) :=
  ⟨(compareImagesRun_zero_dim ⟨0, 5, fun _ _ => (0, 0, 0)⟩
      ⟨4, 5, fun _ _ => (0, 0, 0)⟩ 0).1 (Or.inl rfl),
   (compareImagesRun_zero_dim ⟨3, 2, fun _ _ => (0, 0, 0)⟩
      ⟨2, 3, fun _ _ => (9, 0, 0)⟩ 0).2 (by decide) (by decide) (by decide) (by decide)⟩

/-! ## Crawl lemmas -/

theorem extractLinks_hostname {pageLinks : List Url} {baseUrl l : Url}
    (h : l ∈ extractLinks pageLinks baseUrl) : l.hostname = baseUrl.hostname := by
  unfold extractLinks at h
  have h1 := List.of_mem_filter h
  have h2 := mem_dedupFirst.mp (List.mem_of_mem_filter h)
  have h3 := List.of_mem_filter h2
  simpa using h3

theorem crawlLoop_inv (pages : Url → List Url) (startUrl : Url)
    (P : CrawlState → Prop)
    (hstep : ∀ s, P s → P (crawlStep pages startUrl s)) :
    ∀ (n : Nat) (s : CrawlState), P s → P (crawlLoop pages startUrl n s) := by
  intro n
  induction n with
  | zero => intro s hs; exact hs
  | succ n ih =>
    intro s hs
    rcases hq : s.queue with _ | ⟨u, rest⟩
    · simpa [crawlLoop, hq] using hs
    · rw [crawlLoop, hq]
      exact ih _ (hstep s hs)

/-! ## C5 — external domains are never dequeued or captured -/

/-- Claim C5: `extractLinks` yields only links whose hostname equals the
base URL's hostname, and consequently every URL the crawler ever visits
(and hence captures) in any crawl from any seed has the seed's
hostname — an external-domain URL is never dequeued. -/
theorem crawl_never_external (pageLinks : List Url) (baseUrl l : Url)
    (hl : l ∈ extractLinks pageLinks baseUrl)
    (pages : Url → List Url) (start : Url) (fuel : Nat) (u : Url)
    (hu : u ∈ (crawlSite pages start fuel).visited) :
    l.hostname = baseUrl.hostname ∧ u.hostname = start.hostname := by
  refine ⟨extractLinks_hostname hl, ?_⟩
  have inv : (∀ v ∈ (crawlSite pages start fuel).visited, v.hostname = start.hostname) ∧
      (∀ v ∈ (crawlSite pages start fuel).queue, v.hostname = start.hostname) := by
    apply crawlLoop_inv pages start
      (fun s => (∀ v ∈ s.visited, v.hostname = start.hostname) ∧
        (∀ v ∈ s.queue, v.hostname = start.hostname))
    · intro s hs
      rcases hq : s.queue with _ | ⟨w, rest⟩
      · simpa [crawlStep, hq] using hs
      · have hw : w.hostname = start.hostname := hs.2 w (by rw [hq]; exact List.mem_cons_self w rest)
        by_cases hv : w ∈ s.visited
        · refine ⟨?_, ?_⟩ <;> simp only [crawlStep, hq, if_pos hv]
          · exact hs.1
          · intro v hvr
            exact hs.2 v (by rw [hq]; exact List.mem_cons_of_mem w hvr)
        · constructor <;> simp only [crawlStep, hq, if_neg hv]
          · intro v hvv
            rcases List.mem_append.mp hvv with hvl | hvl
            · exact hs.1 v hvl
            · rcases List.mem_singleton.mp hvl with rfl
              exact hw
          · intro v hvq
            rcases List.mem_append.mp hvq with hvl | hvl
            · exact hs.2 v (by rw [hq]; exact List.mem_cons_of_mem w hvl)
            · exact extractLinks_hostname (List.mem_of_mem_filter hvl)
    · constructor
      · intro v hv
        simp at hv
      · intro v hv
        rcases List.mem_singleton.mp hv with rfl
        rfl
  exact inv.1 u hu

/-- Witness for C5 on a page holding one internal and one external link
and a two-page crawl. -/
theorem crawl_never_external_witness :
    (⟨"h", "/a", ""⟩ : Url).hostname = (⟨"h", "/", ""⟩ : Url).hostname ∧
    (⟨"h", "/a", ""⟩ : Url).hostname = (⟨"h", "/", ""⟩ : Url).hostname :=
  crawl_never_external
    [⟨"h", "/a", ""⟩, ⟨"example.com", "/", ""⟩] ⟨"h", "/", ""⟩ ⟨"h", "/a", ""⟩
    (by decide)
    (fun u => if u = ⟨"h", "/", ""⟩ then [⟨"h", "/a", ""⟩, ⟨"example.com", "/", ""⟩] else [])
    ⟨"h", "/", ""⟩ 5 ⟨"h", "/a", ""⟩ (by decide)

/-! ## C8 — the queue may hold duplicates; no URL is processed twice -/

/-- Counterexample to claim C8 as stated: a pushed link is checked only
against the visited set, not against the pending queue, so after the
crawler processes a seed linking to `/a` and `/b` which both link to
`/c`, the queue holds `/c` twice. -/
theorem crawl_queue_duplicate :
    ¬ ((crawlStep
        (fun u => if u = ⟨"h", "/", ""⟩ then [⟨"h", "/a", ""⟩, ⟨"h", "/b", ""⟩]
          else if u = ⟨"h", "/a", ""⟩ then [⟨"h", "/c", ""⟩]
          else if u = ⟨"h", "/b", ""⟩ then [⟨"h", "/c", ""⟩] else [])
        ⟨"h", "/", ""⟩ (crawlStep
        (fun u => if u = ⟨"h", "/", ""⟩ then [⟨"h", "/a", ""⟩, ⟨"h", "/b", ""⟩]
          else if u = ⟨"h", "/a", ""⟩ then [⟨"h", "/c", ""⟩]
          else if u = ⟨"h", "/b", ""⟩ then [⟨"h", "/c", ""⟩] else [])
        ⟨"h", "/", ""⟩ (crawlStep
        (fun u => if u = ⟨"h", "/", ""⟩ then [⟨"h", "/a", ""⟩, ⟨"h", "/b", ""⟩]
          else if u = ⟨"h", "/a", ""⟩ then [⟨"h", "/c", ""⟩]
          else if u = ⟨"h", "/b", ""⟩ then [⟨"h", "/c", ""⟩] else [])
        ⟨"h", "/", ""⟩ ⟨[], [⟨"h", "/", ""⟩]⟩))).queue).Nodup := by decide

/-- Claim C8 amended: the push check consults only the visited set, so
the queue can hold duplicates; the visited-set guard at dequeue time
nevertheless keeps the list of processed (captured) URLs duplicate-free
in every crawl. -/
theorem crawl_visited_nodup (pages : Url → List Url) (start : Url) (fuel : Nat) :
    (crawlSite pages start fuel).visited.Nodup := by
  have inv : (crawlSite pages start fuel).visited.Nodup :=
    crawlLoop_inv pages start (fun s => s.visited.Nodup)
      (by
        intro s hs
        rcases hq : s.queue with _ | ⟨w, rest⟩
        · simpa [crawlStep, hq] using hs
        · by_cases hv : w ∈ s.visited
          · simpa [crawlStep, hq, if_pos hv] using hs
          · simp only [crawlStep, hq, if_neg hv]
            exact List.Nodup.append hs (List.nodup_singleton w)
              (by simpa using hv))
      fuel _ List.nodup_nil
  exact inv

/-! ## C1 — termination and exactly-once coverage -/

theorem length_le_card_of_nodup {l univ : List Url} (hnd : l.Nodup)
    (hsub : ∀ u ∈ l, u ∈ univ) : l.length ≤ univ.toFinset.card := by
  have h1 : l.toFinset.card = l.length := List.toFinset_card_of_nodup hnd
  have h2 : l.toFinset ⊆ univ.toFinset := by
    intro x hx
    exact List.mem_toFinset.mpr (hsub x (List.mem_toFinset.mp hx))
  calc l.length = l.toFinset.card := h1.symm
    _ ≤ univ.toFinset.card := Finset.card_le_card h2

theorem crawlStep_inv (pages : Url → List Url) (start : Url) (univ : List Url)
    (hC : ∀ u ∈ univ, ∀ v ∈ extractLinks (pages u) start, v ∈ univ)
    (s : CrawlState) (h : CrawlInv pages start univ s) :
    CrawlInv pages start univ (crawlStep pages start s) := by
  obtain ⟨hnd, hvU, hqU, hcl, hvR, hqR, hst⟩ := h
  rcases hq : s.queue with _ | ⟨u, rest⟩
  · simp only [crawlStep, hq]
    exact ⟨hnd, hvU, hqU, hcl, hvR, hqR, hst⟩
  · by_cases hv : u ∈ s.visited
    · simp only [crawlStep, hq, if_pos hv]
      refine ⟨hnd, hvU, ?_, ?_, hvR, ?_, ?_⟩
      · intro w hw
        exact hqU w (hq ▸ List.mem_cons_of_mem u hw)
      · intro w hw v hv'
        rcases hcl w hw v hv' with h1 | h1
        · exact Or.inl h1
        · rw [hq] at h1
          rcases List.mem_cons.mp h1 with rfl | h2
          · exact Or.inl hv
          · exact Or.inr h2
      · intro w hw
        exact hqR w (hq ▸ List.mem_cons_of_mem u hw)
      · rcases hst with h1 | h1
        · exact Or.inl h1
        · rw [hq] at h1
          rcases List.mem_cons.mp h1 with rfl | h2
          · exact Or.inl hv
          · exact Or.inr h2
    · have huq : u ∈ s.queue := hq ▸ List.mem_cons_self u rest
      have hu_univ : u ∈ univ := hqU u huq
      have huR : Reaches pages start u := hqR u huq
      simp only [crawlStep, hq, if_neg hv]
      refine ⟨?_, ?_, ?_, ?_, ?_, ?_, ?_⟩
      · exact List.Nodup.append hnd (List.nodup_singleton u) (by simpa using hv)
      · intro w hw
        rcases List.mem_append.mp hw with h1 | h1
        · exact hvU w h1
        · rcases List.mem_singleton.mp h1 with rfl
          exact hu_univ
      · intro w hw
        rcases List.mem_append.mp hw with h1 | h1
        · exact hqU w (hq ▸ List.mem_cons_of_mem u h1)
        · exact hC u hu_univ w (List.mem_of_mem_filter h1)
      · intro w hw v hv'
        rcases List.mem_append.mp hw with h1 | h1
        · rcases hcl w h1 v hv' with h2 | h2
          · exact Or.inl (List.mem_append.mpr (Or.inl h2))
          · rw [hq] at h2
            rcases List.mem_cons.mp h2 with rfl | h3
            · exact Or.inl (List.mem_append.mpr (Or.inr (List.mem_singleton_self _)))
            · exact Or.inr (List.mem_append.mpr (Or.inl h3))
        · rcases List.mem_singleton.mp h1 with rfl
          by_cases hvv : v ∈ s.visited ++ [w]
          · exact Or.inl hvv
          · refine Or.inr (List.mem_append.mpr (Or.inr ?_))
            exact List.mem_filter.mpr ⟨hv', decide_eq_true hvv⟩
      · intro w hw
        rcases List.mem_append.mp hw with h1 | h1
        · exact hvR w h1
        · rcases List.mem_singleton.mp h1 with rfl
          exact huR
      · intro w hw
        rcases List.mem_append.mp hw with h1 | h1
        · exact hqR w (hq ▸ List.mem_cons_of_mem u h1)
        · exact Reaches.step huR (List.mem_of_mem_filter h1)
      · rcases hst with h1 | h1
        · exact Or.inl (List.mem_append.mpr (Or.inl h1))
        · rw [hq] at h1
          rcases List.mem_cons.mp h1 with rfl | h2
          · exact Or.inl (List.mem_append.mpr (Or.inr (List.mem_singleton_self _)))
          · exact Or.inr (List.mem_append.mpr (Or.inl h2))

theorem crawlLoop_drains (pages : Url → List Url) (start : Url) (univ : List Url) (B : Nat)
    (hC : ∀ u ∈ univ, ∀ v ∈ extractLinks (pages u) start, v ∈ univ)
    (hB : ∀ u ∈ univ, (extractLinks (pages u) start).length ≤ B) :
    ∀ (n : Nat) (s : CrawlState), CrawlInv pages start univ s →
      crawlMeasure univ B s ≤ n →
      (crawlLoop pages start n s).queue = [] ∧
        CrawlInv pages start univ (crawlLoop pages start n s) := by
  intro n
  induction n with
  | zero =>
    intro s hs hm
    have hq : s.queue.length = 0 := by
      have : s.queue.length ≤ crawlMeasure univ B s := Nat.le_add_left _ _
      omega
    have : s.queue = [] := List.length_eq_zero.mp hq
    exact ⟨this, hs⟩
  | succ n ih =>
    intro s hs hm
    rcases hq : s.queue with _ | ⟨u, rest⟩
    · have hid : crawlLoop pages start (n + 1) s = s := by
        simp [crawlLoop, hq]
      rw [hid]
      exact ⟨hq, hs⟩
    · rw [crawlLoop, hq]
      have hs' := crawlStep_inv pages start univ hC s hs
      have hm' : crawlMeasure univ B (crawlStep pages start s) ≤ n := by
        by_cases hv : u ∈ s.visited
        · have hstep : crawlStep pages start s = { s with queue := rest } := by
            simp [crawlStep, hq, if_pos hv]
          rw [hstep]
          have : crawlMeasure univ B s =
              (univ.toFinset.card - s.visited.length) * (B + 1) + (rest.length + 1) := by
            simp [crawlMeasure, hq]
          simp only [crawlMeasure] at *
          omega
        · have hu_univ : u ∈ univ := hs.2.2.1 u (hq ▸ List.mem_cons_self u rest)
          have hnd' : (s.visited ++ [u]).Nodup :=
            List.Nodup.append hs.1 (List.nodup_singleton u) (by simpa using hv)
          have hsub' : ∀ w ∈ s.visited ++ [u], w ∈ univ := by
            intro w hw
            rcases List.mem_append.mp hw with h1 | h1
            · exact hs.2.1 w h1
            · rcases List.mem_singleton.mp h1 with rfl
              exact hu_univ
          have hcard : s.visited.length + 1 ≤ univ.toFinset.card := by
            have := length_le_card_of_nodup hnd' hsub'
            simpa using this
          have hstep : crawlStep pages start s =
              { visited := s.visited ++ [u]
                queue := rest ++ (extractLinks (pages u) start).filter
                  (fun l => ¬ l ∈ s.visited ++ [u]) } := by
            simp [crawlStep, hq, if_neg hv]
          rw [hstep]
          have hlinks : ((extractLinks (pages u) start).filter
              (fun l => ¬ l ∈ s.visited ++ [u])).length ≤ B :=
            le_trans (List.length_filter_le _ _) (hB u hu_univ)
          simp only [crawlMeasure, List.length_append, List.length_singleton] at *
          obtain ⟨k, hk⟩ : ∃ k, univ.toFinset.card - s.visited.length = k + 1 := by
            refine ⟨univ.toFinset.card - s.visited.length - 1, ?_⟩
            omega
          have hk' : univ.toFinset.card - (s.visited.length + 1) = k := by omega
          rw [hk] at hm
          rw [hk']
          have hexp : (k + 1) * (B + 1) = k * (B + 1) + (B + 1) := by ring
          rw [hexp] at hm
          rw [hq] at hm
          simp only [List.length_cons] at hm
          omega
      exact ih (crawlStep pages start s) hs' hm'

/-- Counterexample to claim C1 as stated: the visited-set key is the full
URL string, not the hostname+path identity, so a seed linking to
`/p?a=1` and `/p?a=2` terminates having captured the identity `h_p`
twice. -/
theorem crawl_identity_captured_twice :
    (crawlSite
      (fun u => if u = ⟨"h", "/", ""⟩ then [⟨"h", "/p", "a=1"⟩, ⟨"h", "/p", "a=2"⟩] else [])
      ⟨"h", "/", ""⟩ 10).queue = [] ∧
    (crawlSite
      (fun u => if u = ⟨"h", "/", ""⟩ then [⟨"h", "/p", "a=1"⟩, ⟨"h", "/p", "a=2"⟩] else [])
      ⟨"h", "/", ""⟩ 10).visited = [⟨"h", "/", ""⟩, ⟨"h", "/p", "a=1"⟩, ⟨"h", "/p", "a=2"⟩] ∧
    ¬ (((crawlSite
      (fun u => if u = ⟨"h", "/", ""⟩ then [⟨"h", "/p", "a=1"⟩, ⟨"h", "/p", "a=2"⟩] else [])
      ⟨"h", "/", ""⟩ 10).visited.map urlDirName).Nodup) := by decide

/-- Claim C1 amended: for a finite same-domain link graph (a finite
universe containing the seed and closed under extracted links, with
out-degree bounded by `B`), the crawl drains its queue within
`card · (B+1) + 1` iterations and the visited list — one screenshot
capture per entry — contains every URL reachable from the seed exactly
once, URLs being identified by their full string (hostname, path and
query); identities that ignore the query string can repeat. -/
theorem crawlSite_visits_reachable_exactly_once
    (pages : Url → List Url) (start : Url) (univ : List Url) (B : Nat)
    (hU : start ∈ univ)
    (hC : ∀ u ∈ univ, ∀ v ∈ extractLinks (pages u) start, v ∈ univ)
    (hB : ∀ u ∈ univ, (extractLinks (pages u) start).length ≤ B) :
    (crawlSite pages start (univ.toFinset.card * (B + 1) + 1)).queue = [] ∧
    (crawlSite pages start (univ.toFinset.card * (B + 1) + 1)).visited.Nodup ∧
    (∀ u, u ∈ (crawlSite pages start (univ.toFinset.card * (B + 1) + 1)).visited ↔
      Reaches pages start u) := by
  have hinit : CrawlInv pages start univ { visited := [], queue := [start] } := by
    refine ⟨List.nodup_nil, ?_, ?_, ?_, ?_, ?_, ?_⟩
    · intro u hu
      simp at hu
    · intro u hu
      rcases List.mem_singleton.mp hu with rfl
      exact hU
    · intro u hu
      simp at hu
    · intro u hu
      simp at hu
    · intro u hu
      rcases List.mem_singleton.mp hu with rfl
      exact Reaches.refl
    · exact Or.inr (List.mem_singleton_self _)
  have hminit : crawlMeasure univ B { visited := [], queue := [start] } ≤
      univ.toFinset.card * (B + 1) + 1 := by
    simp [crawlMeasure]
  obtain ⟨hdrain, hinv⟩ := crawlLoop_drains pages start univ B hC hB
    (univ.toFinset.card * (B + 1) + 1) { visited := [], queue := [start] } hinit hminit
  obtain ⟨hnd, _, _, hcl, hvR, _, hst⟩ := hinv
  refine ⟨hdrain, hnd, ?_⟩
  intro u
  constructor
  · exact hvR u
  · intro hreach
    induction hreach with
    | refl =>
      rcases hst with h1 | h1
      · exact h1
      · rw [hdrain] at h1
        simp at h1
    | step hu hlink ih =>
      rcases hcl _ ih _ hlink with h1 | h1
      · exact h1
      · rw [hdrain] at h1
        simp at h1

/-- Witness for C1 (amended) on the spec's example graph: the seed links
to `/a` and `/b`, `/a` links back to the seed and on to `/c`, `/b` has no
links. -/
theorem crawlSite_visits_reachable_exactly_once_witness :
    (crawlSite
      (fun u => if u = ⟨"h", "/", ""⟩ then [⟨"h", "/a", ""⟩, ⟨"h", "/b", ""⟩]
        else if u = ⟨"h", "/a", ""⟩ then [⟨"h", "/", ""⟩, ⟨"h", "/c", ""⟩] else [])
      ⟨"h", "/", ""⟩
      (([⟨"h", "/", ""⟩, ⟨"h", "/a", ""⟩, ⟨"h", "/b", ""⟩, ⟨"h", "/c", ""⟩] :
        List Url).toFinset.card * (2 + 1) + 1)).queue = [] ∧
    (crawlSite
      (fun u => if u = ⟨"h", "/", ""⟩ then [⟨"h", "/a", ""⟩, ⟨"h", "/b", ""⟩]
        else if u = ⟨"h", "/a", ""⟩ then [⟨"h", "/", ""⟩, ⟨"h", "/c", ""⟩] else [])
      ⟨"h", "/", ""⟩
      (([⟨"h", "/", ""⟩, ⟨"h", "/a", ""⟩, ⟨"h", "/b", ""⟩, ⟨"h", "/c", ""⟩] :
        List Url).toFinset.card * (2 + 1) + 1)).visited.Nodup ∧
    (∀ u, u ∈ (crawlSite
      (fun u => if u = ⟨"h", "/", ""⟩ then [⟨"h", "/a", ""⟩, ⟨"h", "/b", ""⟩]
        else if u = ⟨"h", "/a", ""⟩ then [⟨"h", "/", ""⟩, ⟨"h", "/c", ""⟩] else [])
      ⟨"h", "/", ""⟩
      (([⟨"h", "/", ""⟩, ⟨"h", "/a", ""⟩, ⟨"h", "/b", ""⟩, ⟨"h", "/c", ""⟩] :
        List Url).toFinset.card * (2 + 1) + 1)).visited ↔
      Reaches
        (fun u => if u = ⟨"h", "/", ""⟩ then [⟨"h", "/a", ""⟩, ⟨"h", "/b", ""⟩]
          else if u = ⟨"h", "/a", ""⟩ then [⟨"h", "/", ""⟩, ⟨"h", "/c", ""⟩] else [])
        ⟨"h", "/", ""⟩ u) :=
  crawlSite_visits_reachable_exactly_once
    (fun u => if u = ⟨"h", "/", ""⟩ then [⟨"h", "/a", ""⟩, ⟨"h", "/b", ""⟩]
      else if u = ⟨"h", "/a", ""⟩ then [⟨"h", "/", ""⟩, ⟨"h", "/c", ""⟩] else [])
    ⟨"h", "/", ""⟩
    [⟨"h", "/", ""⟩, ⟨"h", "/a", ""⟩, ⟨"h", "/b", ""⟩, ⟨"h", "/c", ""⟩] 2
    (by decide) (by decide) (by decide)
